import Mathlib

/-!
Verification of the pkms hybrid-retrieval pipeline.

Shallow embedding of the claim-relevant parts of the source:
* `SearchEngine` — `pkms/lib/search/search_engine_planv3.py`
  (`_rrf_fusion`, `_apply_grouping`, `search`),
* `Chunking` — `.pkms/lib/chunking/hybrid.py` (`HierarchicalChunker`)
  with `.pkms/lib/utils/tokens.py` (`count_tokens` fallback),
* `RecordsIO` — `pkms/lib/records_io.py` (`save_record`) and
  `.pkms/tools/chunk.py` (`save_chunks`) as filesystem-operation traces,
* `LinkGraph` — `.pkms/tools/link.py`
  (`extract_wikilinks`, `build_lookup_maps`, `resolve_link`, `process_links`),
* `Relevance` — `.pkms/tools/relevance.py` (`compute_relevance_score`),
* `Embeddings` — normalization in `_load_chunk_embeddings` and
  `_cosine_similarity`.

Python floats are modelled as exact rationals (`ℚ`) where only comparisons
and rank arithmetic matter (RRF scores), and as reals (`ℝ`) where
transcendental functions occur (relevance scoring, vector norms).
Python dicts are modelled as insertion-ordered association lists:
assignment updates the first matching key in place or appends, lookup
returns the most recent binding.
-/

namespace SearchEngine

/-- Keyword (BM25) hit as produced by `_keyword_search`: a dict with
chunk_id, doc_id, section, chunk_index and a BM25 score. -/
structure KwHit where
  chunk_id : String
  doc_id : String
  sect : String
  chunk_index : Nat
  score : ℚ
deriving DecidableEq, Repr

/-- Semantic hit as produced by `_semantic_search`: a dict with
chunk_id, doc_id, chunk_hash and a cosine score. -/
structure SemHit where
  chunk_id : String
  doc_id : String
  chunk_hash : String
  score : ℚ
deriving DecidableEq, Repr

/-- Source tag of a returned hit. -/
inductive HitSource where
  | keyword
  | semantic
  | hybrid
deriving DecidableEq, Repr

/-- Returned hit of `SearchEngine.search`. -/
structure Hit where
  chunk_id : String
  doc_id : String
  rrf_score : Option ℚ
  bm25 : Option ℚ
  semantic : Option ℚ
  source : HitSource
  sect : String
  chunk_index : Nat
deriving DecidableEq, Repr

/-- Python-dict lookup on an association list built by appending
bindings: the LAST binding for a key wins (later assignments override). -/
def dictGet {β : Type} : List (String × β) → String → Option β
  | [], _ => none
  | (k, v) :: rest, c =>
    match dictGet rest c with
    | some w => some w
    | none => if k = c then some v else none

/-- One `scores[chunk_id] = scores.get(chunk_id, 0.0) + contrib` step of
`_rrf_fusion`: update the first entry for the key in place, else append. -/
def upsertScore : List (String × ℚ) → String → ℚ → List (String × ℚ)
  | [], c, v => [(c, v)]
  | (c0, s0) :: rest, c, v =>
    if c0 = c then (c0, s0 + v) :: rest
    else (c0, s0) :: upsertScore rest c v

/-- The `for rank, r in enumerate(results)` loop of `_rrf_fusion`:
each item at 0-based rank `r` contributes `1/(rrf_k + r + 1)`. -/
def addRanked (K : ℕ) : List (String × ℚ) → List String → ℕ → List (String × ℚ)
  | m, [], _ => m
  | m, c :: cs, r => addRanked K (upsertScore m c (1 / (K + r + 1 : ℚ))) cs (r + 1)

/-- The accumulated `scores` dict of `_rrf_fusion` over all result lists. -/
def rrfScores (K : ℕ) (lists : List (List String)) : List (String × ℚ) :=
  lists.foldl (fun m l => addRanked K m l 0) []

/-- Comparison used by `sorted(scores.items(), key=lambda x: x[1], reverse=True)`:
descending by score; `sorted` is stable, which `mergeSort` matches. -/
def scoreDescLE (p q : String × ℚ) : Bool := decide (q.2 ≤ p.2)

/-- `SearchEngine._rrf_fusion`: reciprocal rank fusion over chunk_id,
stable-sorted by summed score descending, truncated to `top_k`. -/
def rrf_fusion (K : ℕ) (lists : List (List String)) (topK : ℕ) : List (String × ℚ) :=
  ((rrfScores K lists).mergeSort scoreDescLE).take topK

/-- Prefix of a chunk_id before the first colon:
`chunk_id.split(":", 1)[0] if ":" in chunk_id else chunk_id`. -/
def splitDocId (cid : String) : String :=
  String.mk (cid.toList.takeWhile (fun c => c ≠ ':'))

/-- Python `a or b` on optional strings: an empty string is falsy. -/
def orNonempty (a b : Option String) : Option String :=
  match a with
  | some s => if s = "" then b else some s
  | none => b

/-- The doc_id determination in `_apply_grouping`: keyword metadata,
else semantic metadata, else the chunk_id prefix before the colon. -/
def docIdFor (kwD : List (String × KwHit)) (semD : List (String × SemHit))
    (cid : String) : String :=
  match orNonempty ((dictGet kwD cid).map KwHit.doc_id)
      ((dictGet semD cid).map SemHit.doc_id) with
  | some d => if d = "" then splitDocId cid else d
  | none => splitDocId cid

/-- One iteration of the grouping loop: ensure the doc's bucket exists,
then append the pair only while the bucket holds fewer than `limit`. -/
def addToGroups (limit : ℕ) :
    List (String × List (String × ℚ)) → String → (String × ℚ) →
    List (String × List (String × ℚ))
  | [], d, p => if 0 < limit then [(d, [p])] else [(d, [])]
  | (d0, ps) :: rest, d, p =>
    if d0 = d then
      (if ps.length < limit then (d0, ps ++ [p]) else (d0, ps)) :: rest
    else (d0, ps) :: addToGroups limit rest d p

/-- The full grouping loop of `_apply_grouping` over the fused pairs. -/
def buildGroups (limit : ℕ) (kwD : List (String × KwHit))
    (semD : List (String × SemHit)) :
    List (String × ℚ) → List (String × List (String × ℚ)) →
    List (String × List (String × ℚ))
  | [], gs => gs
  | p :: ps, gs => buildGroups limit kwD semD ps (addToGroups limit gs (docIdFor kwD semD p.1) p)

/-- The flattening step of `_apply_grouping`: build the output dict for
one grouped `(chunk_id, rrf_score)` pair. -/
def renderHit (kwD : List (String × KwHit)) (semD : List (String × SemHit))
    (d : String) (p : String × ℚ) : Hit :=
  let kwm := dictGet kwD p.1
  let semm := dictGet semD p.1
  let bm25 := kwm.map KwHit.score
  let semsc := semm.map SemHit.score
  let src :=
    match bm25, semsc with
    | some _, some _ => HitSource.hybrid
    | some _, none => HitSource.keyword
    | none, _ => HitSource.semantic
  { chunk_id := p.1
    doc_id := d
    rrf_score := some p.2
    bm25 := bm25
    semantic := semsc
    source := src
    sect := (kwm.map KwHit.sect).getD ""
    chunk_index := (kwm.map KwHit.chunk_index).getD 0 }

/-- `SearchEngine._apply_grouping`: group fused pairs by doc_id with at
most `group_limit` chunks per doc, then flatten in doc insertion order. -/
def apply_grouping (limit : ℕ) (fused : List (String × ℚ))
    (kwD : List (String × KwHit)) (semD : List (String × SemHit)) : List Hit :=
  let gs := buildGroups limit kwD semD fused []
  (gs.map (fun g => g.2.map (renderHit kwD semD g.1))).flatten

/-- A keyword-only fallback hit as built in `SearchEngine.search`. -/
def kwFallbackHit (r : KwHit) : Hit :=
  { chunk_id := r.chunk_id
    doc_id := r.doc_id
    rrf_score := none
    bm25 := some r.score
    semantic := none
    source := HitSource.keyword
    sect := r.sect
    chunk_index := r.chunk_index }

/-- `SearchEngine.search`. The two retrieval stages are external
(Whoosh, numpy): their result lists are inputs. `semStage = none` models
`self.embed_fn is None or self.embeddings_normed.size == 0`
(the keyword-only fallback); `semStage = some sem` is hybrid mode. -/
def search (K limit : ℕ) (kwResults : List KwHit)
    (semStage : Option (List SemHit)) (k : ℕ) : List Hit :=
  let kwDict := kwResults.map (fun r => (r.chunk_id, r))
  match semStage with
  | none => (kwResults.take k).map kwFallbackHit
  | some semResults =>
    let semDict := semResults.map (fun r => (r.chunk_id, r))
    let fused := rrf_fusion K [kwResults.map KwHit.chunk_id,
      semResults.map SemHit.chunk_id] (k * 5)
    (apply_grouping limit fused kwDict semDict).take k

/-- Summed value of all entries for a key (with unique keys this is the
dict lookup, and it is total). -/
def scoreIn : List (String × ℚ) → String → ℚ
  | [], _ => 0
  | e :: rest, c => (if e.1 = c then e.2 else 0) + scoreIn rest c

/-- Contribution of one ranked list to a chunk's RRF score, ranks
starting at `r`: each occurrence at 0-based rank `i` adds `1/(K+i+1)`. -/
def contrib (K : ℕ) : ℕ → List String → String → ℚ
  | _, [], _ => 0
  | r, c0 :: cs, c =>
    (if c0 = c then (1 : ℚ) / (K + r + 1) else 0) + contrib K (r + 1) cs c

end SearchEngine

namespace Chunking

/-- Whitespace test used for Python `str.split()`, `str.strip()` and
the `\s` character class. -/
def isWS (c : Char) : Bool := c.isWhitespace

/-- Python `str.strip()` on a character list. -/
def stripChars (cs : List Char) : List Char :=
  ((cs.dropWhile isWS).reverse.dropWhile isWS).reverse

/-- Python `str.strip()`. -/
def pyStrip (s : String) : String := String.mk (stripChars s.toList)

/-- Worker for Python `str.split()` with no separator: maximal runs of
non-whitespace characters. -/
def wordsAux : List Char → List Char → List (List Char)
  | [], acc => if acc.isEmpty then [] else [acc.reverse]
  | c :: cs, acc =>
    if isWS c then
      if acc.isEmpty then wordsAux cs [] else acc.reverse :: wordsAux cs []
    else wordsAux cs (c :: acc)

/-- Python `text.split()`. -/
def pyWords (s : String) : List String := (wordsAux s.toList []).map String.mk

/-- The `count_tokens` fallback of `.pkms/lib/utils/tokens.py`:
`int(len(text.split()) * 1.3)`, modelled as the exact floor of `13w/10`. -/
def count_tokens (s : String) : ℕ := 13 * (pyWords s).length / 10

/-- Lines of a text with their start offsets (split at `LF`). -/
def linesAux : List Char → ℕ → List Char → List (ℕ × List Char)
  | [], start, acc => [(start, acc.reverse)]
  | c :: cs, start, acc =>
    if c = '\n' then (start, acc.reverse) :: linesAux cs (start + acc.length + 1) []
    else linesAux cs start (c :: acc)

/-- Heading found by `split_by_headings`. -/
structure Heading where
  level : ℕ
  title : String
  start : ℕ
deriving DecidableEq, Repr

/-- Match of the heading regex on one line, modelled line-locally:
one to six hashes, at least one whitespace character, and at least one
further character; the title is the remainder stripped (as
`match.group(2).strip()`). -/
def headingOfLine : ℕ × List Char → Option Heading
  | (start, cs) =>
    let n := (cs.takeWhile (fun c => c = '#')).length
    let rest := cs.drop n
    if 1 ≤ n ∧ n ≤ 6 then
      match rest with
      | c :: _ :: _ =>
        if isWS c then some ⟨n, String.mk (stripChars (rest.drop 1)), start⟩ else none
      | _ => none
    else none

/-- All headings of a text with their offsets. -/
def headingsOf (cs : List Char) : List Heading :=
  (linesAux cs 0 []).filterMap headingOfLine

/-- Section produced by `split_by_headings`: a dict with keys text,
section, subsection. -/
structure Sect where
  text : String
  sect : Option String
  subsect : Option String
deriving DecidableEq, Repr

/-- The section-building loop of `split_by_headings`: each section runs
from its heading to the next heading; a level-1 heading sets the section
title and clears the subsection, a level-2 heading sets the subsection. -/
def sectionsLoop (cs : List Char) : List Heading → Option String → Option String → List Sect
  | [], _, _ => []
  | h :: hs, h1, h2 =>
    let endPos :=
      match hs with
      | h' :: _ => h'.start
      | [] => cs.length
    let sectionText := stripChars ((cs.drop h.start).take (endPos - h.start))
    let next :=
      if h.level = 1 then (some h.title, (none : Option String))
      else if h.level = 2 then (h1, some h.title)
      else (h1, h2)
    ⟨String.mk sectionText, next.1, next.2⟩ :: sectionsLoop cs hs next.1 next.2

/-- `HierarchicalChunker.split_by_headings`. -/
def split_by_headings (text : String) : List Sect :=
  let cs := text.toList
  let hs := headingsOf cs
  if hs.isEmpty then [⟨pyStrip text, none, none⟩]
  else sectionsLoop cs hs none none

/-- Worker for `re.split` on two-or-more newlines (paragraph split). -/
def splitParasAux : List Char → List Char → List (List Char)
  | [], acc => [acc.reverse]
  | '\n' :: '\n' :: cs, acc =>
    acc.reverse :: splitParasAux (cs.dropWhile (fun c => c = '\n')) []
  | c :: cs, acc => splitParasAux cs (c :: acc)
termination_by cs _ => cs.length
decreasing_by
  · have := (List.dropWhile_sublist (l := cs) (fun c => c = '\n')).length_le
    simp only [List.length_cons]
    omega
  · simp only [List.length_cons]
    omega

/-- Sentence terminator class of the sentence-splitting regex. -/
def isTerm (c : Char) : Bool := c = '.' ∨ c = '!' ∨ c = '?'

/-- Worker for `re.split` on whitespace preceded by a sentence
terminator: the separator is the maximal whitespace run. -/
def splitSentencesAux : List Char → List Char → List (List Char)
  | [], acc => [acc.reverse]
  | c :: cs, acc =>
    if isTerm c ∧ (cs.head?.map isWS).getD false then
      (c :: acc).reverse :: splitSentencesAux (cs.dropWhile isWS) []
    else splitSentencesAux cs (c :: acc)
termination_by cs _ => cs.length
decreasing_by
  · have := (List.dropWhile_sublist (l := cs) isWS).length_le
    simp only [List.length_cons]
    omega
  · simp only [List.length_cons]
    omega

/-- Sentence split of a paragraph. -/
def splitSentences (s : String) : List String :=
  (splitSentencesAux s.toList []).map String.mk

/-- Paragraph split of a section text. -/
def splitParas (s : String) : List String :=
  (splitParasAux s.toList []).map String.mk

/-- Join of the buffered pieces at flush time (`sep.join(current_chunk)`). -/
def flushWith (sep : String) (cur : List String) : String := String.intercalate sep cur

/-- Overlap handling after a flush: keep the last buffered element when
the buffer held at least two, else clear the buffer. -/
def overlapAfterFlush (cur : List String) : List String × ℕ :=
  if 1 < cur.length then
    match cur.getLast? with
    | some lastS => ([lastS], count_tokens lastS)
    | none => ([], 0)
  else ([], 0)

/-- The inner sentence loop of `split_large_section`: flush (joined with
a single space) when adding the sentence would exceed `max_tokens` and
the buffer is nonempty, then append the sentence. -/
def sentLoop (maxTok : ℕ) : List String → List String → ℕ → List String →
    List String × List String × ℕ
  | [], cur, curTok, acc => (acc, cur, curTok)
  | s :: rest, cur, curTok, acc =>
    let st := count_tokens s
    if maxTok < curTok + st ∧ cur ≠ [] then
      let flushed := flushWith " " cur
      let o := overlapAfterFlush cur
      sentLoop maxTok rest (o.1 ++ [s]) (o.2 + st) (acc ++ [flushed])
    else
      sentLoop maxTok rest (cur ++ [s]) (curTok + st) acc

/-- The paragraph loop of `split_large_section`: skip empty paragraphs,
send oversized paragraphs through the sentence loop, otherwise flush
(joined with a blank line) when the paragraph would overflow the
buffer, then append the paragraph. -/
def paraLoop (maxTok : ℕ) : List String → List String → ℕ → List String →
    List String × List String × ℕ
  | [], cur, curTok, acc => (acc, cur, curTok)
  | p0 :: rest, cur, curTok, acc =>
    let p := pyStrip p0
    if p = "" then paraLoop maxTok rest cur curTok acc
    else
      let pt := count_tokens p
      if maxTok < pt then
        let r := sentLoop maxTok (splitSentences p) cur curTok acc
        paraLoop maxTok rest r.2.1 r.2.2 r.1
      else
        if maxTok < curTok + pt ∧ cur ≠ [] then
          let flushed := flushWith "\n\n" cur
          let o := overlapAfterFlush cur
          paraLoop maxTok rest (o.1 ++ [p]) (o.2 + pt) (acc ++ [flushed])
        else
          paraLoop maxTok rest (cur ++ [p]) (curTok + pt) acc

/-- `HierarchicalChunker.split_large_section`: a section within
`max_tokens` is one chunk; otherwise greedy paragraph packing with
overlap, with a final flush of the remaining buffer. -/
def split_large_section (maxTok : ℕ) (s : Sect) : List Sect :=
  if count_tokens s.text ≤ maxTok then [s]
  else
    let r := paraLoop maxTok (splitParas s.text) [] 0 []
    let acc := if r.2.1 ≠ [] then r.1 ++ [flushWith "\n\n" r.2.1] else r.1
    acc.map (fun t => ⟨t, s.sect, s.subsect⟩)

/-- Chunk after filtering, with its recomputed token count. -/
structure Chunk where
  text : String
  sect : Option String
  subsect : Option String
  tokens : ℕ
deriving DecidableEq, Repr

/-- `HierarchicalChunker.chunk`: heading split, size enforcement, then
the filter keeping only chunks with at least `min_chunk_tokens` tokens
(the filter is unconditional in the source). -/
def chunk (maxTok minTok : ℕ) (text : String) : List Chunk :=
  let sections := split_by_headings text
  let allChunks := (sections.map (split_large_section maxTok)).flatten
  allChunks.filterMap (fun c =>
    let t := count_tokens c.text
    if minTok ≤ t then some ⟨c.text, c.sect, c.subsect, t⟩ else none)

end Chunking

namespace RecordsIO

/-- Filesystem content operation performed by the writers. Opening a
file with mode `w` truncates it; `json.dump` and `f.write` append data
to the open file; `rename` moves a file over the destination. -/
inductive FsOp where
  | truncate (path : String)
  | writeData (path : String) (data : String)
  | rename (src dst : String)
deriving DecidableEq, Repr

/-- Trace of `records_io.save_record`: it opens `records_dir/{id}.json`
directly with mode `w` and dumps the serialized record into it (the
`mkdir` call touches no file content and is omitted). -/
def save_record_ops (recId json dir : String) : List FsOp :=
  [FsOp.truncate (dir ++ "/" ++ recId ++ ".json"),
   FsOp.writeData (dir ++ "/" ++ recId ++ ".json") json]

/-- Trace of `.pkms/tools/chunk.py save_chunks`: it opens
`chunks_dir/{doc_id}.ndjson` directly with mode `w` and writes one
serialized chunk plus a newline per iteration. -/
def save_chunks_ops (docId : String) (chunkLines : List String) (dir : String) : List FsOp :=
  FsOp.truncate (dir ++ "/" ++ docId ++ ".ndjson") ::
    chunkLines.map (fun line => FsOp.writeData (dir ++ "/" ++ docId ++ ".ndjson") (line ++ "\n"))

/-- A filesystem state: file contents by path. -/
def Fs : Type := String → Option String

/-- Effect of one operation on the filesystem. -/
def runOp (fs : Fs) : FsOp → Fs
  | FsOp.truncate p => fun q => if q = p then some "" else fs q
  | FsOp.writeData p d => fun q => if q = p then (fs p).map (· ++ d) else fs q
  | FsOp.rename s t => fun q => if q = t then fs s else if q = s then none else fs q

/-- All filesystem states a concurrent reader can observe while a trace
runs: the initial state, every intermediate state, and the final state. -/
def statesOf (fs : Fs) : List FsOp → List Fs
  | [] => [fs]
  | op :: ops => fs :: statesOf (runOp fs op) ops

/-- Final filesystem state after a trace. -/
def runOps (fs : Fs) (ops : List FsOp) : Fs := ops.foldl runOp fs

/-- A trace is a write-to-temp-and-rename write of `content` to `dst`:
no operation before the final rename touches `dst`, and the trace ends
by renaming a distinct temporary file onto `dst`. -/
def atomicTempRename (ops : List FsOp) (dst : String) : Prop :=
  ∃ pre tmp, tmp ≠ dst ∧ ops = pre ++ [FsOp.rename tmp dst] ∧
    ∀ op ∈ pre,
      (∀ p, op = FsOp.truncate p → p ≠ dst) ∧
      (∀ p d, op = FsOp.writeData p d → p ≠ dst) ∧
      (∀ s t, op = FsOp.rename s t → t ≠ dst)

/-- A reader never observes a partial file: at every observable state
the file at `dst` holds either the old content or the new content. -/
def allOrNothing (fs0 : Fs) (ops : List FsOp) (dst : String) (newContent : String) : Prop :=
  ∀ fs ∈ statesOf fs0 ops, fs dst = fs0 dst ∨ fs dst = some newContent

end RecordsIO

namespace LinkGraph

/-- A link entry as written into `record.links` and `record.backlinks`. -/
structure Link where
  raw : String
  type : String
  target : Option String
  resolved : Bool
  context : String
deriving DecidableEq, Repr

/-- An extracted wikilink as returned by `extract_wikilinks`. -/
structure WikiLink where
  raw : String
  target : String
  display : String
  context : String
deriving DecidableEq, Repr

/-- Character class of the wikilink target: everything except a closing
bracket and the pipe. -/
def isTargetChar (c : Char) : Bool := c ≠ ']' ∧ c ≠ '|'

/-- Character class of the wikilink display text: everything except a
closing bracket. -/
def isDisplayChar (c : Char) : Bool := c ≠ ']'

/-- Attempted match of the wikilink pattern at the head of `cs`:
two opening brackets, a nonempty target, an optional pipe with nonempty
display text, two closing brackets. Returns target characters, optional
display characters, and the match length. -/
def tryWikilink : List Char → Option (List Char × Option (List Char) × ℕ)
  | '[' :: '[' :: rest =>
    let tgt := rest.takeWhile isTargetChar
    if tgt.isEmpty then none
    else
      match rest.drop tgt.length with
      | '|' :: rest2 =>
        let dsp := rest2.takeWhile isDisplayChar
        if dsp.isEmpty then none
        else
          match rest2.drop dsp.length with
          | ']' :: ']' :: _ => some (tgt, some dsp, 2 + tgt.length + 1 + dsp.length + 2)
          | _ => none
      | ']' :: ']' :: _ => some (tgt, none, 2 + tgt.length + 2)
      | _ => none
  | _ => none

/-- Leftmost non-overlapping scan of `re.finditer`: try a match at every
position, resuming after the end of each match. Records the match start,
length, target and display. -/
def scanWikilinks : List Char → ℕ → List (ℕ × ℕ × List Char × Option (List Char))
  | [], _ => []
  | c :: cs, pos =>
    match tryWikilink (c :: cs) with
    | some (tgt, dsp, len) =>
      (pos, len, tgt, dsp) :: scanWikilinks (cs.drop (len - 1)) (pos + len)
    | none => scanWikilinks cs (pos + 1)
termination_by cs _ => cs.length
decreasing_by
  · have := List.length_drop (len - 1) cs
    simp only [List.length_cons]
    omega
  · simp only [List.length_cons]
    omega

/-- Python `str.lower()` (on the relevant ASCII range). -/
def pyLower (s : String) : String := String.mk (s.toList.map Char.toLower)

/-- Python slicing `s[:n]`. -/
def pyTake (n : ℕ) (s : String) : String := String.mk (s.toList.take n)

/-- Build one extracted wikilink dict from a scanner match: the raw
match text, the stripped target, the display text (the stripped target
when no display was given), and the 50-character context window around
the match with newlines collapsed to spaces. -/
def mkWikiLink (full : List Char) (m : ℕ × ℕ × List Char × Option (List Char)) : WikiLink :=
  let pos := m.1
  let len := m.2.1
  let a := pos - 50
  let b := min full.length (pos + len + 50)
  let ctx := ((full.drop a).take (b - a)).map (fun c => if c = '\n' then ' ' else c)
  let tgt := Chunking.pyStrip (String.mk m.2.2.1)
  { raw := String.mk ((full.drop pos).take len)
    target := tgt
    display :=
      match m.2.2.2 with
      | some d => Chunking.pyStrip (String.mk d)
      | none => tgt
    context := String.mk ctx }

/-- `extract_wikilinks` of `.pkms/tools/link.py`. -/
def extract_wikilinks (text : String) : List WikiLink :=
  (scanWikilinks text.toList 0).map (mkWikiLink text.toList)

/-- A metadata record as far as the link rebuild reads and writes it. -/
structure LRecord where
  slug : String
  aliases : List String
  title : String
  full_text : String
  links : List Link
  backlinks : List Link
deriving DecidableEq, Repr

/-- The four lookup dicts built by `build_lookup_maps`. -/
structure LookupMaps where
  id : List (String × String)
  slug : List (String × String)
  aliasMap : List (String × String)
  title : List (String × String)
deriving DecidableEq, Repr

/-- `build_lookup_maps`: id, slug, lowercased alias and lowercased
title, each mapping to the record's ULID; later records override
earlier ones on key collisions (dict assignment, `dictGet` is
last-wins). -/
def build_lookup_maps (records : List (String × LRecord)) : LookupMaps :=
  records.foldl
    (fun lk e =>
      { id := lk.id ++ [(e.1, e.1)]
        slug := lk.slug ++ [(e.2.slug, e.1)]
        aliasMap := lk.aliasMap ++ e.2.aliases.map (fun a => (pyLower a, e.1))
        title := lk.title ++ [(pyLower e.2.title, e.1)] })
    ⟨[], [], [], []⟩

/-- `resolve_link`: strip the target, then try the id, slug, lowercased
alias and lowercased title maps in that order; the first hit wins. -/
def resolve_link (target : String) (lk : LookupMaps) : Option String × String :=
  let tc := Chunking.pyStrip target
  match SearchEngine.dictGet lk.id tc with
  | some u => (some u, "id")
  | none =>
    match SearchEngine.dictGet lk.slug tc with
    | some u => (some u, "slug")
    | none =>
      let tl := pyLower tc
      match SearchEngine.dictGet lk.aliasMap tl with
      | some u => (some u, "alias")
      | none =>
        match SearchEngine.dictGet lk.title tl with
        | some u => (some u, "title")
        | none => (none, "unresolved")

/-- Forward-link construction inside `process_links`: an unresolved link
keeps `type = "slug"` (the default), `target = None`,
`resolved = False`; the context is truncated to 200 characters. -/
def linkFromWikilink (lk : LookupMaps) (wl : WikiLink) : Link :=
  let r := resolve_link wl.target lk
  { raw := wl.raw
    type := if r.2 ≠ "unresolved" then r.2 else "slug"
    target := r.1
    resolved := r.1.isSome
    context := pyTake 200 wl.context }

/-- Update the record stored under `key` (keys are unique in a dict). -/
def updateRecord (rs : List (String × LRecord)) (key : String) (f : LRecord → LRecord) :
    List (String × LRecord) :=
  rs.map (fun e => if e.1 = key then (e.1, f e.2) else e)

/-- The backlink entry appended to the target record: it points back to
the source record. -/
def mkBacklink (l : Link) (sourceId : String) : Link :=
  { raw := l.raw, type := l.type, target := some sourceId, resolved := true,
    context := l.context }

/-- The inner loop of the backlink phase of `process_links` for one
source record: for every resolved link with a truthy target that exists
in the record dict, append a backlink to the target record. -/
def addBacklinksOfSource (rs : List (String × LRecord)) (sourceId : String)
    (links : List Link) : List (String × LRecord) :=
  links.foldl
    (fun acc l =>
      match l.target with
      | some t =>
        if l.resolved ∧ t ≠ "" ∧ (acc.map Prod.fst).contains t then
          updateRecord acc t
            (fun r => { r with backlinks := r.backlinks ++ [mkBacklink l sourceId] })
        else acc
      | none => acc)
    rs

/-- `process_links`: build the lookup maps, clear all links and
backlinks, extract and resolve forward links per record, then append
one backlink on the target per resolved forward link. -/
def process_links (records : List (String × LRecord)) : List (String × LRecord) :=
  let lookup := build_lookup_maps records
  let cleared := records.map (fun e => (e.1, { e.2 with links := [], backlinks := [] }))
  let withLinks := cleared.map (fun e =>
    (e.1, { e.2 with links := (extract_wikilinks e.2.full_text).map (linkFromWikilink lookup) }))
  withLinks.foldl (fun acc e => addBacklinksOfSource acc e.1 e.2.links) withLinks

end LinkGraph

namespace Relevance

/-- A record as far as `compute_relevance_score` reads it. Timestamps
are seconds since the epoch; `backlinksCount` and `linksCount` stand for
the lengths of the record's backlink and link lists (only the lengths
are read); `agent_reviewed` is `record.agent.reviewed` when an agent
block exists. -/
structure RelRecord where
  updatedSec : ℝ
  backlinksCount : ℕ
  full_text : String
  linksCount : ℕ
  human_edited : Option Bool
  agent_reviewed : Option Bool

/-- The clamp `max(0.0, min(1.0, x))` applied by every component scorer. -/
noncomputable def clamp01 (x : ℝ) : ℝ := max 0 (min 1 x)

/-- `compute_recency_score`: exponential decay of the age in days with
the configured half-life, clamped to the unit interval. -/
noncomputable def compute_recency_score (halfLife : ℝ) (r : RelRecord) (nowSec : ℝ) : ℝ :=
  clamp01 (Real.exp (-(((nowSec - r.updatedSec) / 86400) / halfLife)))

/-- `compute_link_score`: zero without backlinks, else a log scale
normalized by `log(1 + 100)`, clamped. -/
noncomputable def compute_link_score (r : RelRecord) : ℝ :=
  if r.backlinksCount = 0 then 0
  else clamp01 (Real.log (1 + (r.backlinksCount : ℝ)) / Real.log (1 + 100))

/-- `compute_quality_score`: word-count ratio capped at one, an
outgoing-link indicator, and the placeholder media score, clamped. -/
noncomputable def compute_quality_score (r : RelRecord) : ℝ :=
  let wordScore := min 1 (((Chunking.pyWords r.full_text).length : ℝ) / 2000)
  let linkScore : ℝ := if 0 < r.linksCount then 1 else 0
  clamp01 (0.5 * wordScore + 0.3 * linkScore + 0.2 * 0.5)

/-- `compute_user_score`: half a point for a human edit, 0.3 for an
agent review, clamped. -/
noncomputable def compute_user_score (r : RelRecord) : ℝ :=
  let s1 : ℝ := if r.human_edited = some true then 0.5 else 0
  let s2 : ℝ := if r.agent_reviewed = some true then 0.3 else 0
  clamp01 (s1 + s2)

/-- `compute_relevance_score`: the weighted sum of the four component
scores, clamped to the unit interval. -/
noncomputable def compute_relevance_score (wR wL wQ wU halfLife : ℝ) (r : RelRecord) (nowSec : ℝ) : ℝ :=
  clamp01 (wR * compute_recency_score halfLife r nowSec +
    wL * compute_link_score r +
    wQ * compute_quality_score r +
    wU * compute_user_score r)

end Relevance

namespace Embeddings

/-- Sum of squares of a vector's entries. -/
noncomputable def sumSq (v : List ℝ) : ℝ := (v.map (fun x => x ^ 2)).sum

/-- Euclidean norm as computed by `np.linalg.norm`. -/
noncomputable def l2norm (v : List ℝ) : ℝ := Real.sqrt (sumSq v)

/-- The row-normalization of `_load_chunk_embeddings`: zero norms are
replaced by one before dividing, so zero rows pass through unchanged. -/
noncomputable def normalizeRow (v : List ℝ) : List ℝ :=
  let n := l2norm v
  let d := if n = 0 then 1 else n
  v.map (fun x => x / d)

/-- Row-wise normalization of the stacked embedding matrix. -/
noncomputable def normalizeMatrix (M : List (List ℝ)) : List (List ℝ) := M.map normalizeRow

/-- Dot product of two vectors. -/
noncomputable def dot (a b : List ℝ) : ℝ := (List.zipWith (fun x y => x * y) a b).sum

/-- `_cosine_similarity`: empty matrix gives an empty result, a
zero-norm query gives all zeros, otherwise the matrix-vector product
with the normalized query. -/
noncomputable def cosine_similarity (q : List ℝ) (M : List (List ℝ)) : List ℝ :=
  if M.isEmpty then []
  else if l2norm q = 0 then M.map (fun _ => 0)
  else M.map (fun row => dot row (q.map (fun x => x / l2norm q)))

end Embeddings

namespace SearchEngine

/-- Ordering asserted by the spec for returned hits: summed RRF score
descending, equal scores broken by chunk_id ascending in byte order. -/
def hitClaimOrder (a b : Hit) : Bool :=
  match a.rrf_score, b.rrf_score with
  | some sa, some sb => sb < sa ∨ (sa = sb ∧ a.chunk_id ≤ b.chunk_id)
  | _, _ => true

/-- Three keyword hits over two documents used as a concrete search
input: document `a` contributes ranks one and three, document `b`
rank two. -/
def exKw3 : List KwHit :=
  [ { chunk_id := "a:1", doc_id := "a", sect := "", chunk_index := 0, score := 5 },
    { chunk_id := "b:1", doc_id := "b", sect := "", chunk_index := 0, score := 4 },
    { chunk_id := "a:2", doc_id := "a", sect := "", chunk_index := 1, score := 3 } ]

/-- Four keyword hits of one single document. -/
def fbKw4 : List KwHit :=
  [ { chunk_id := "d:0", doc_id := "d", sect := "", chunk_index := 0, score := 10 },
    { chunk_id := "d:1", doc_id := "d", sect := "", chunk_index := 1, score := 9 },
    { chunk_id := "d:2", doc_id := "d", sect := "", chunk_index := 2, score := 8 },
    { chunk_id := "d:3", doc_id := "d", sect := "", chunk_index := 3, score := 7 } ]

/-- Twenty keyword hits of one single document. -/
def kw20 : List KwHit :=
  (List.range 20).map (fun i =>
    { chunk_id := "d:" ++ toString i, doc_id := "d", sect := "", chunk_index := i,
      score := (100 : ℚ) - i })

end SearchEngine

namespace RecordsIO

/-- Rename test on a filesystem operation. -/
def isRenameOp : FsOp → Bool
  | FsOp.rename _ _ => true
  | _ => false

end RecordsIO

namespace LinkGraph

/-- Resolution written from the spec sentence for comparison with
`resolve_link`: four tiers tried in order with the first hit winning —
existing ULID, case-sensitive slug, lowercased alias, lowercased
title — and no tier matching yields an unresolved result. -/
def resolveLinkSpec (target : String) (lk : LookupMaps) : Option String × String :=
  let tc := Chunking.pyStrip target
  let tl := pyLower tc
  if (SearchEngine.dictGet lk.id tc).isSome then (SearchEngine.dictGet lk.id tc, "id")
  else if (SearchEngine.dictGet lk.slug tc).isSome then (SearchEngine.dictGet lk.slug tc, "slug")
  else if (SearchEngine.dictGet lk.aliasMap tl).isSome then
    (SearchEngine.dictGet lk.aliasMap tl, "alias")
  else if (SearchEngine.dictGet lk.title tl).isSome then
    (SearchEngine.dictGet lk.title tl, "title")
  else (none, "unresolved")

/-- Test whether a forward link generates a backlink onto `B` in the
backlink phase: it must be resolved with the truthy target `B`. -/
def backlinkPred (B : String) (l : Link) : Bool :=
  l.resolved ∧ l.target = some B ∧ B ≠ ""

/-- All backlinks appended onto `B` by the backlink phase, in source
iteration order. -/
def backlinkBlocks (S : List (String × LRecord)) (B : String) : List Link :=
  (S.map (fun e => (e.2.links.filter (backlinkPred B)).map (fun l => mkBacklink l e.1))).flatten

/-- The resolved link entry produced for each `[[b-slug]]` occurrence in
the two-record example. -/
def exLinkToB : Link :=
  { raw := "[[b-slug]]"
    type := "slug"
    target := some "B1"
    resolved := true
    context := "See [[b-slug]] and [[b-slug]]" }

/-- The record of `A1` after the rebuild of the two-record example. -/
def exA1after : LRecord :=
  { slug := "a-slug"
    aliases := []
    title := "A"
    full_text := "See [[b-slug]] and [[b-slug]]"
    links := [exLinkToB, exLinkToB]
    backlinks := [] }

/-- The record of `B1` after the rebuild of the two-record example. -/
def exB1after : LRecord :=
  { slug := "b-slug"
    aliases := []
    title := "B"
    full_text := "nothing"
    links := []
    backlinks := [{ exLinkToB with target := some "A1" },
      { exLinkToB with target := some "A1" }] }

/-- The record map after the clearing and forward-link phases of
`process_links`, before the backlink phase. -/
def withLinksOf (records : List (String × LRecord)) : List (String × LRecord) :=
  (records.map (fun e => (e.1, { e.2 with links := [], backlinks := [] }))).map
    (fun e => (e.1, { e.2 with links :=
      (extract_wikilinks e.2.full_text).map (linkFromWikilink (build_lookup_maps records)) }))

/-- Two records where document `A1` links twice to document `B1` by its
slug. -/
def exRecords : List (String × LRecord) :=
  [ ("A1", { slug := "a-slug", aliases := [], title := "A",
             full_text := "See [[b-slug]] and [[b-slug]]", links := [], backlinks := [] }),
    ("B1", { slug := "b-slug", aliases := [], title := "B",
             full_text := "nothing", links := [], backlinks := [] }) ]

end LinkGraph

/-!
Theorems. Helper lemmas come first, then one theorem per claim (with
its witness or counterexample where required).

The two attribute lines make rational arithmetic and `mergeSort`
unfold definitionally, so that concrete runs of the embedded engine
can be checked by `decide`.
-/

attribute [local semireducible] Rat.add Rat.inv Rat.sub Rat.mul

unseal List.merge List.mergeSort Chunking.splitParasAux Chunking.splitSentencesAux
  LinkGraph.scanWikilinks

namespace SearchEngine

theorem addToGroups_length_le {limit : ℕ} {gs : List (String × List (String × ℚ))}
    {d : String} {p : String × ℚ}
    (h : ∀ g ∈ gs, g.2.length ≤ limit) :
    ∀ g ∈ addToGroups limit gs d p, g.2.length ≤ limit := by
  induction gs with
  | nil =>
    intro g hg
    simp only [addToGroups] at hg
    split at hg <;> simp_all
    omega
  | cons e rest ih =>
    intro g hg
    obtain ⟨d0, ps⟩ := e
    have hhead : ps.length ≤ limit := by simpa using h (d0, ps) (by simp)
    have htail : ∀ g ∈ rest, g.2.length ≤ limit := fun g' hg' => h g' (by simp [hg'])
    simp only [addToGroups] at hg
    by_cases hd : d0 = d
    · rw [if_pos hd, List.mem_cons] at hg
      rcases hg with hg | hg
      · subst hg
        split
        · simp only [List.length_append, List.length_singleton]
          omega
        · exact hhead
      · exact htail g hg
    · rw [if_neg hd, List.mem_cons] at hg
      rcases hg with hg | hg
      · subst hg
        exact hhead
      · exact ih htail g hg

theorem keys_addToGroups (limit : ℕ) (gs : List (String × List (String × ℚ)))
    (d : String) (p : String × ℚ) :
    (addToGroups limit gs d p).map Prod.fst =
      if d ∈ gs.map Prod.fst then gs.map Prod.fst else gs.map Prod.fst ++ [d] := by
  induction gs with
  | nil =>
    simp only [addToGroups, List.map_nil]
    split <;> simp
  | cons e rest ih =>
    obtain ⟨d0, ps⟩ := e
    simp only [addToGroups, List.map_cons]
    by_cases hd : d0 = d
    · subst hd
      rw [if_pos rfl]
      rw [if_pos (show d0 ∈ d0 :: rest.map Prod.fst by simp)]
      split <;> simp
    · rw [if_neg hd]
      simp only [List.map_cons, ih]
      by_cases hm : d ∈ rest.map Prod.fst
      · rw [if_pos hm, if_pos (show d ∈ d0 :: rest.map Prod.fst by simp [hm])]
      · rw [if_neg hm,
          if_neg (show ¬ d ∈ d0 :: rest.map Prod.fst by simp [hm, Ne.symm hd])]
        simp

theorem nodup_keys_addToGroups {limit : ℕ} {gs : List (String × List (String × ℚ))}
    {d : String} {p : String × ℚ}
    (h : (gs.map Prod.fst).Nodup) :
    ((addToGroups limit gs d p).map Prod.fst).Nodup := by
  rw [keys_addToGroups]
  split
  · exact h
  · next hnm => simp [List.nodup_append, h, hnm]

theorem buildGroups_length_le {limit : ℕ} {kwD : List (String × KwHit)}
    {semD : List (String × SemHit)} (ps : List (String × ℚ))
    (gs : List (String × List (String × ℚ)))
    (h : ∀ g ∈ gs, g.2.length ≤ limit) :
    ∀ g ∈ buildGroups limit kwD semD ps gs, g.2.length ≤ limit := by
  induction ps generalizing gs with
  | nil => exact h
  | cons p rest ih =>
    simp only [buildGroups]
    exact ih _ (addToGroups_length_le h)

theorem nodup_keys_buildGroups {limit : ℕ} {kwD : List (String × KwHit)}
    {semD : List (String × SemHit)} (ps : List (String × ℚ))
    (gs : List (String × List (String × ℚ)))
    (h : (gs.map Prod.fst).Nodup) :
    ((buildGroups limit kwD semD ps gs).map Prod.fst).Nodup := by
  induction ps generalizing gs with
  | nil => exact h
  | cons p rest ih =>
    simp only [buildGroups]
    exact ih _ (nodup_keys_addToGroups h)

theorem countP_renderGroup (kwD : List (String × KwHit)) (semD : List (String × SemHit))
    (d : String) (g : String × List (String × ℚ)) :
    (g.2.map (renderHit kwD semD g.1)).countP (fun h => h.doc_id = d) =
      if g.1 = d then g.2.length else 0 := by
  rw [List.countP_map]
  have hdoc : ∀ q : String × ℚ, (renderHit kwD semD g.1 q).doc_id = g.1 := fun _ => rfl
  by_cases hd : g.1 = d
  · subst hd
    have : ∀ q ∈ g.2, ((fun h : Hit => decide (h.doc_id = g.1)) ∘ renderHit kwD semD g.1) q = true := by
      intro q _
      simp [Function.comp, hdoc]
    rw [List.countP_eq_length.mpr this, if_pos rfl]
  · have : ∀ q ∈ g.2, ¬ (((fun h : Hit => decide (h.doc_id = d)) ∘ renderHit kwD semD g.1) q = true) := by
      intro q _
      simp [Function.comp, hdoc, hd]
    rw [if_neg hd, List.countP_eq_zero.mpr this]

theorem countP_flatten_zero (kwD : List (String × KwHit)) (semD : List (String × SemHit))
    (d : String) (gs : List (String × List (String × ℚ)))
    (hnm : d ∉ gs.map Prod.fst) :
    ((gs.map (fun g => g.2.map (renderHit kwD semD g.1))).flatten).countP
      (fun h => h.doc_id = d) = 0 := by
  induction gs with
  | nil => simp
  | cons g rest ih =>
    simp only [List.map_cons, List.flatten_cons, List.countP_append]
    rw [countP_renderGroup]
    have h1 : ¬ g.1 = d := by
      intro hc
      exact hnm (by simp [hc])
    rw [if_neg h1, ih (fun hc => hnm (by simp [hc]))]

theorem countP_flatten_groups {limit : ℕ} (kwD : List (String × KwHit))
    (semD : List (String × SemHit)) (d : String)
    (gs : List (String × List (String × ℚ)))
    (hnd : (gs.map Prod.fst).Nodup)
    (hlen : ∀ g ∈ gs, g.2.length ≤ limit) :
    ((gs.map (fun g => g.2.map (renderHit kwD semD g.1))).flatten).countP
      (fun h => h.doc_id = d) ≤ limit := by
  induction gs with
  | nil => simp
  | cons g rest ih =>
    simp only [List.map_cons, List.flatten_cons, List.countP_append]
    rw [countP_renderGroup]
    simp only [List.map_cons, List.nodup_cons] at hnd
    by_cases hd : g.1 = d
    · rw [if_pos hd]
      rw [countP_flatten_zero kwD semD d rest (hd ▸ hnd.1)]
      have := hlen g (by simp)
      omega
    · rw [if_neg hd]
      have := ih hnd.2 (fun g' hg' => hlen g' (by simp [hg']))
      omega

end SearchEngine

namespace SearchEngine

/-- C1 (amended): in hybrid mode no doc_id accounts for more than
`group_limit` of the returned hits; in the keyword-only fallback no
grouping is applied at all, and only the truncation to `k` bounds how
many hits a single document may contribute. -/
theorem c1_group_limit_bound :
    (∀ K limit kw sem k d,
      (search K limit kw (some sem) k).countP (fun h => h.doc_id = d) ≤ limit) ∧
    (∀ K limit kw k, (search K limit kw none k).length ≤ k) := by
  constructor
  · intro K limit kw sem k d
    show ((apply_grouping limit
        (rrf_fusion K [kw.map KwHit.chunk_id, sem.map SemHit.chunk_id] (k * 5))
        (kw.map (fun r => (r.chunk_id, r)))
        (sem.map (fun r => (r.chunk_id, r)))).take k).countP (fun h => h.doc_id = d) ≤ limit
    refine le_trans (List.Sublist.countP_le _ (List.take_sublist k _)) ?_
    unfold apply_grouping
    exact countP_flatten_groups _ _ d _
      (nodup_keys_buildGroups _ [] (by simp))
      (buildGroups_length_le _ [] (by simp))
  · intro K limit kw k
    simp only [search, List.length_map]
    exact (List.length_take_le _ _)

/-- C1 counterexample: with the embedding stage unavailable the engine
returns the keyword list ungrouped, so four hits of one document pass
through even though `group_limit = 3`. -/
theorem c1_counterexample :
    ¬ ((search 60 3 fbKw4 none 10).countP (fun h => h.doc_id = "d") ≤ 3) := by
  decide

end SearchEngine

namespace SearchEngine

/-- C2 counterexample: a concrete hybrid search (keyword ranks a:1, b:1,
a:2; no semantic hits) whose returned hits carry RRF scores 1/61, 1/63,
1/62 in that order — the flattening of the per-document groups reorders
hits across documents, so the result is not sorted by summed RRF score
descending with chunk_id tie-breaking. -/
theorem c2_counterexample :
    ¬ (search 60 3 exKw3 (some []) 3).Pairwise (fun a b => hitClaimOrder a b = true) := by
  decide

/-- C2 (amended): the fused candidate list produced by `_rrf_fusion` is
ordered by summed RRF score descending (the sort is stable, so equal
scores keep first-occurrence order rather than chunk_id order), and the
hits returned in hybrid mode are that list regrouped per document and
truncated to `k` — the final hit list itself is not globally
score-descending. -/
theorem c2_fused_sorted :
    (∀ K lists topK, (rrf_fusion K lists topK).Pairwise
      (fun p q : String × ℚ => q.2 ≤ p.2)) ∧
    (∀ K limit kw sem k, search K limit kw (some sem) k =
      (apply_grouping limit
        (rrf_fusion K [kw.map KwHit.chunk_id, sem.map SemHit.chunk_id] (k * 5))
        (kw.map (fun r => (r.chunk_id, r)))
        (sem.map (fun r => (r.chunk_id, r)))).take k) := by
  constructor
  · intro K lists topK
    have hs : ((rrfScores K lists).mergeSort scoreDescLE).Pairwise
        (fun a b => scoreDescLE a b = true) :=
      List.sorted_mergeSort
        (fun a b c hab hbc => by
          simp only [scoreDescLE, decide_eq_true_eq] at *
          exact le_trans hbc hab)
        (fun a b => by
          simp only [scoreDescLE, Bool.or_eq_true, decide_eq_true_eq]
          exact le_total b.2 a.2)
        (rrfScores K lists)
    have hs' : ((rrfScores K lists).mergeSort scoreDescLE).Pairwise
        (fun p q : String × ℚ => q.2 ≤ p.2) :=
      hs.imp (by simp [scoreDescLE])
    exact List.Pairwise.sublist (List.take_sublist _ _) hs'
  · intro K limit kw sem k
    rfl

end SearchEngine

namespace SearchEngine

theorem scoreIn_upsert (m : List (String × ℚ)) (c c' : String) (v : ℚ) :
    scoreIn (upsertScore m c v) c' = scoreIn m c' + if c = c' then v else 0 := by
  induction m with
  | nil =>
    simp only [upsertScore, scoreIn]
    ring
  | cons e rest ih =>
    obtain ⟨c0, s0⟩ := e
    simp only [upsertScore]
    by_cases h0 : c0 = c
    · subst h0
      simp only [if_pos rfl, scoreIn]
      split_ifs <;> ring
    · simp only [if_neg h0, scoreIn, ih]
      ring

theorem keys_upsert (m : List (String × ℚ)) (c : String) (v : ℚ) :
    (upsertScore m c v).map Prod.fst =
      if c ∈ m.map Prod.fst then m.map Prod.fst else m.map Prod.fst ++ [c] := by
  induction m with
  | nil => simp [upsertScore]
  | cons e rest ih =>
    obtain ⟨c0, s0⟩ := e
    simp only [upsertScore, List.map_cons]
    by_cases h0 : c0 = c
    · subst h0
      rw [if_pos rfl, if_pos (show c0 ∈ c0 :: rest.map Prod.fst by simp)]
      simp
    · rw [if_neg h0]
      simp only [List.map_cons, ih]
      by_cases hm : c ∈ rest.map Prod.fst
      · rw [if_pos hm, if_pos (show c ∈ c0 :: rest.map Prod.fst by simp [hm])]
      · rw [if_neg hm,
          if_neg (show ¬ c ∈ c0 :: rest.map Prod.fst by simp [hm, Ne.symm h0])]
        simp

theorem nodup_keys_upsert {m : List (String × ℚ)} {c : String} {v : ℚ}
    (h : (m.map Prod.fst).Nodup) :
    ((upsertScore m c v).map Prod.fst).Nodup := by
  rw [keys_upsert]
  split
  · exact h
  · next hnm => simp [List.nodup_append, h, hnm]

theorem mem_keys_upsert {m : List (String × ℚ)} {c c' : String} {v : ℚ} :
    c' ∈ (upsertScore m c v).map Prod.fst ↔ c' ∈ m.map Prod.fst ∨ c' = c := by
  rw [keys_upsert]
  split
  · next hm =>
    constructor
    · exact Or.inl
    · rintro (h | rfl)
      · exact h
      · exact hm
  · simp

theorem scoreIn_addRanked (K : ℕ) (l : List String) (m : List (String × ℚ))
    (r : ℕ) (c : String) :
    scoreIn (addRanked K m l r) c = scoreIn m c + contrib K r l c := by
  induction l generalizing m r with
  | nil => simp [addRanked, contrib]
  | cons c0 cs ih =>
    simp only [addRanked, contrib, ih, scoreIn_upsert]
    ring

theorem nodup_keys_addRanked (K : ℕ) (l : List String) {m : List (String × ℚ)}
    (r : ℕ) (h : (m.map Prod.fst).Nodup) :
    ((addRanked K m l r).map Prod.fst).Nodup := by
  induction l generalizing m r with
  | nil => exact h
  | cons c0 cs ih => exact ih _ (nodup_keys_upsert h)

theorem mem_keys_addRanked (K : ℕ) (l : List String) (m : List (String × ℚ))
    (r : ℕ) (c : String) :
    c ∈ (addRanked K m l r).map Prod.fst ↔ c ∈ m.map Prod.fst ∨ c ∈ l := by
  induction l generalizing m r with
  | nil => simp [addRanked]
  | cons c0 cs ih =>
    simp only [addRanked, ih, mem_keys_upsert, List.mem_cons]
    tauto

theorem scoreIn_rrfScores₂ (K : ℕ) (l1 l2 : List String) (c : String) :
    scoreIn (rrfScores K [l1, l2]) c = contrib K 0 l1 c + contrib K 0 l2 c := by
  simp only [rrfScores, List.foldl_cons, List.foldl_nil, scoreIn_addRanked]
  simp [scoreIn]

theorem nodup_keys_rrfScores₂ (K : ℕ) (l1 l2 : List String) :
    ((rrfScores K [l1, l2]).map Prod.fst).Nodup := by
  simp only [rrfScores, List.foldl_cons, List.foldl_nil]
  exact nodup_keys_addRanked K l2 0 (nodup_keys_addRanked K l1 0 (by simp))

theorem mem_keys_rrfScores₂ (K : ℕ) (l1 l2 : List String) (c : String) :
    c ∈ (rrfScores K [l1, l2]).map Prod.fst ↔ c ∈ l1 ∨ c ∈ l2 := by
  simp only [rrfScores, List.foldl_cons, List.foldl_nil, mem_keys_addRanked]
  simp

theorem scoreIn_eq_zero_of_not_mem {m : List (String × ℚ)} {c : String}
    (h : c ∉ m.map Prod.fst) : scoreIn m c = 0 := by
  induction m with
  | nil => rfl
  | cons e rest ih =>
    simp only [List.map_cons, List.mem_cons] at h
    push_neg at h
    simp only [scoreIn, ih h.2]
    rw [if_neg (fun hc => h.1 hc.symm)]
    ring

theorem scoreIn_of_mem_nodup {m : List (String × ℚ)} {c : String} {v : ℚ}
    (hnd : (m.map Prod.fst).Nodup) (hm : (c, v) ∈ m) : v = scoreIn m c := by
  induction m with
  | nil => cases hm
  | cons e rest ih =>
    simp only [List.map_cons, List.nodup_cons] at hnd
    rcases List.mem_cons.mp hm with rfl | hm'
    · simp [scoreIn, scoreIn_eq_zero_of_not_mem hnd.1]
    · have hne : e.1 ≠ c := by
        intro hc
        exact hnd.1 (hc ▸ List.mem_map.mpr ⟨(c, v), hm', rfl⟩)
      simp only [scoreIn, if_neg hne, ih hnd.2 hm']
      ring

theorem contrib_eq_zero_of_not_mem {l : List String} {c : String} (K r : ℕ)
    (h : c ∉ l) : contrib K r l c = 0 := by
  induction l generalizing r with
  | nil => rfl
  | cons c0 cs ih =>
    simp only [List.mem_cons] at h
    push_neg at h
    simp only [contrib, ih _ h.2]
    rw [if_neg (fun hc => h.1 hc.symm)]
    ring

theorem contrib_of_nodup {l : List String} {c : String} (K r : ℕ)
    (hnd : l.Nodup) (hm : c ∈ l) :
    contrib K r l c = 1 / ((K : ℚ) + r + l.indexOf c + 1) := by
  induction l generalizing r with
  | nil => cases hm
  | cons c0 cs ih =>
    simp only [List.nodup_cons] at hnd
    by_cases h0 : c0 = c
    · subst h0
      rw [List.indexOf_cons_self]
      simp only [contrib, if_pos rfl]
      rw [contrib_eq_zero_of_not_mem K (r + 1) hnd.1]
      push_cast
      ring
    · have hm' : c ∈ cs := by
        rcases List.mem_cons.mp hm with rfl | h
        · exact absurd rfl h0
        · exact h
      rw [List.indexOf_cons_ne _ h0]
      simp only [contrib, if_neg h0, ih _ hnd.2 hm']
      push_cast
      ring

theorem one_div_rank_lt (K : ℕ) {i j : ℕ} (h : i < j) :
    (1 : ℚ) / ((K : ℚ) + j + 1) < 1 / ((K : ℚ) + i + 1) := by
  apply one_div_lt_one_div_of_lt
  · positivity
  · have hij : (i : ℚ) < j := by exact_mod_cast h
    linarith

end SearchEngine

namespace SearchEngine

theorem pairwise_scores_mergeSort (m : List (String × ℚ)) :
    (m.mergeSort scoreDescLE).Pairwise (fun p q : String × ℚ => q.2 ≤ p.2) := by
  have hs : (m.mergeSort scoreDescLE).Pairwise (fun a b => scoreDescLE a b = true) :=
    List.sorted_mergeSort
      (fun a b c hab hbc => by
        simp only [scoreDescLE, decide_eq_true_eq] at *
        exact le_trans hbc hab)
      (fun a b => by
        simp only [scoreDescLE, Bool.or_eq_true, decide_eq_true_eq]
        exact le_total b.2 a.2)
      m
  exact hs.imp (by simp [scoreDescLE])

theorem contrib_strict_mono (K : ℕ) {l : List String} {x y : String}
    (hnd : l.Nodup) (hx : x ∈ l) (hy : y ∈ l) (h : l.indexOf x < l.indexOf y) :
    contrib K 0 l y < contrib K 0 l x := by
  rw [contrib_of_nodup K 0 hnd hx, contrib_of_nodup K 0 hnd hy]
  apply one_div_lt_one_div_of_lt
  · positivity
  · have hc : (l.indexOf x : ℚ) < l.indexOf y := by exact_mod_cast h
    linarith

/-- C6: RRF fusion is rank-monotonic. If chunk `x` appears in both input
lists with a strictly better (smaller) rank than chunk `y` in each, then
the summed RRF score of `x` (each occurrence at 0-based rank `r`
contributing `1/(rrf_k + r + 1)`) strictly exceeds that of `y`, and
wherever `y` appears in the fused list, `x` appears strictly before it. -/
theorem c6_rrf_monotonicity (K : ℕ) (l1 l2 : List String) (x y : String)
    (hn1 : l1.Nodup) (hn2 : l2.Nodup)
    (hx1 : x ∈ l1) (hy1 : y ∈ l1) (hx2 : x ∈ l2) (hy2 : y ∈ l2)
    (hr1 : l1.indexOf x < l1.indexOf y) (hr2 : l2.indexOf x < l2.indexOf y) :
    scoreIn (rrfScores K [l1, l2]) y < scoreIn (rrfScores K [l1, l2]) x ∧
    ∀ (topK j : ℕ) (sy : ℚ), (rrf_fusion K [l1, l2] topK)[j]? = some (y, sy) →
      ∃ i, i < j ∧
        (rrf_fusion K [l1, l2] topK)[i]? = some (x, scoreIn (rrfScores K [l1, l2]) x) := by
  have hxy : x ≠ y := by
    intro h
    rw [h] at hr1
    exact absurd hr1 (lt_irrefl _)
  have hscore : scoreIn (rrfScores K [l1, l2]) y < scoreIn (rrfScores K [l1, l2]) x := by
    rw [scoreIn_rrfScores₂, scoreIn_rrfScores₂]
    exact add_lt_add (contrib_strict_mono K hn1 hx1 hy1 hr1)
      (contrib_strict_mono K hn2 hx2 hy2 hr2)
  refine ⟨hscore, ?_⟩
  intro topK j sy hj
  have hperm := List.mergeSort_perm (rrfScores K [l1, l2]) scoreDescLE
  have hkeysS : (((rrfScores K [l1, l2]).mergeSort scoreDescLE).map Prod.fst).Nodup :=
    ((hperm.map Prod.fst).nodup_iff).mpr (nodup_keys_rrfScores₂ K l1 l2)
  have hsorted := pairwise_scores_mergeSort (rrfScores K [l1, l2])
  -- unpack the hypothesis through the truncation
  rw [rrf_fusion] at hj
  by_cases hjK : j < topK
  case neg =>
    exfalso
    have : ((((rrfScores K [l1, l2]).mergeSort scoreDescLE)).take topK)[j]? = none := by
      apply List.getElem?_eq_none
      have := List.length_take_le topK ((rrfScores K [l1, l2]).mergeSort scoreDescLE)
      omega
    rw [this] at hj
    cases hj
  have hjS : (((rrfScores K [l1, l2]).mergeSort scoreDescLE))[j]? = some (y, sy) := by
    rw [List.getElem?_take_of_lt hjK] at hj
    exact hj
  obtain ⟨hjlen, hjget⟩ := List.getElem?_eq_some_iff.mp hjS
  -- the value stored with y is its summed score
  have hymem : (y, sy) ∈ (rrfScores K [l1, l2]).mergeSort scoreDescLE := by
    rw [← hjget]
    exact List.getElem_mem _
  have hsy : sy = scoreIn (rrfScores K [l1, l2]) y := by
    apply scoreIn_of_mem_nodup (nodup_keys_rrfScores₂ K l1 l2)
    exact (hperm.mem_iff).mp hymem
  -- x has an entry carrying its summed score
  have hxk : x ∈ (rrfScores K [l1, l2]).map Prod.fst :=
    (mem_keys_rrfScores₂ K l1 l2 x).mpr (Or.inl hx1)
  obtain ⟨⟨e1, e2⟩, he, hex⟩ := List.mem_map.mp hxk
  simp only at hex
  have hxentry : (x, scoreIn (rrfScores K [l1, l2]) x) ∈ (rrfScores K [l1, l2]) := by
    have hv : e2 = scoreIn (rrfScores K [l1, l2]) e1 :=
      scoreIn_of_mem_nodup (nodup_keys_rrfScores₂ K l1 l2) he
    rw [← hex, ← hv]
    exact he
  have hxS : (x, scoreIn (rrfScores K [l1, l2]) x) ∈
      (rrfScores K [l1, l2]).mergeSort scoreDescLE :=
    (hperm.mem_iff).mpr hxentry
  obtain ⟨ix, hixlen, hixget⟩ := List.mem_iff_getElem.mp hxS
  -- x's index precedes j
  have hixj : ix < j := by
    rcases lt_trichotomy ix j with h | h | h
    · exact h
    · exfalso
      have h1 : ((rrfScores K [l1, l2]).mergeSort scoreDescLE)[ix]? =
          some (x, scoreIn (rrfScores K [l1, l2]) x) :=
        List.getElem?_eq_some_iff.mpr ⟨hixlen, hixget⟩
      rw [h, hjS] at h1
      injection h1 with h1
      exact hxy (congrArg Prod.fst h1).symm
    · exfalso
      have hrel := List.pairwise_iff_getElem.mp hsorted j ix hjlen hixlen h
      rw [hixget, hjget] at hrel
      simp only at hrel
      rw [hsy] at hrel
      exact absurd hscore (not_lt.mpr hrel)
  refine ⟨ix, hixj, ?_⟩
  rw [rrf_fusion, List.getElem?_take_of_lt (lt_trans hixj hjK)]
  rw [List.getElem?_eq_some_iff]
  exact ⟨hixlen, hixget⟩

/-- C6 witness: both lists rank `a` first and `b` second. -/
theorem c6_rrf_monotonicity_witness :
    (["a", "b"] : List String).Nodup ∧
    ("a" ∈ (["a", "b"] : List String)) ∧
    (List.indexOf "a" ["a", "b"] < List.indexOf "b" ["a", "b"]) ∧
    (scoreIn (rrfScores 60 [["a", "b"], ["a", "b"]]) "b" <
      scoreIn (rrfScores 60 [["a", "b"], ["a", "b"]]) "a" ∧
    ∀ (topK j : ℕ) (sy : ℚ), (rrf_fusion 60 [["a", "b"], ["a", "b"]] topK)[j]? = some ("b", sy) →
      ∃ i, i < j ∧
        (rrf_fusion 60 [["a", "b"], ["a", "b"]] topK)[i]? =
          some ("a", scoreIn (rrfScores 60 [["a", "b"], ["a", "b"]]) "a")) :=
  ⟨by decide, by decide, by decide,
    c6_rrf_monotonicity 60 ["a", "b"] ["a", "b"] "a" "b"
      (by decide) (by decide) (by decide) (by decide) (by decide) (by decide)
      (by decide) (by decide)⟩

end SearchEngine

namespace SearchEngine

theorem pairs_in_addToGroups {Q : (String × ℚ) → Prop} {limit : ℕ}
    {gs : List (String × List (String × ℚ))} {d : String} {p : String × ℚ}
    (hgs : ∀ g ∈ gs, ∀ q ∈ g.2, Q q) (hp : Q p) :
    ∀ g ∈ addToGroups limit gs d p, ∀ q ∈ g.2, Q q := by
  induction gs with
  | nil =>
    intro g hg
    simp only [addToGroups] at hg
    split at hg <;> simp_all
  | cons e rest ih =>
    intro g hg
    obtain ⟨d0, ps⟩ := e
    have hhead : ∀ q ∈ ps, Q q := fun q hq => hgs (d0, ps) (by simp) q hq
    have htail : ∀ g ∈ rest, ∀ q ∈ g.2, Q q := fun g' hg' => hgs g' (by simp [hg'])
    simp only [addToGroups] at hg
    by_cases hd : d0 = d
    · rw [if_pos hd, List.mem_cons] at hg
      rcases hg with hg | hg
      · subst hg
        split
        · intro q hq
          rcases List.mem_append.mp hq with hq | hq
          · exact hhead q hq
          · simp only [List.mem_singleton] at hq
            exact hq ▸ hp
        · exact hhead
      · exact htail g hg
    · rw [if_neg hd, List.mem_cons] at hg
      rcases hg with hg | hg
      · subst hg
        exact hhead
      · exact ih htail g hg

theorem pairs_in_buildGroups {Q : (String × ℚ) → Prop} {limit : ℕ}
    {kwD : List (String × KwHit)} {semD : List (String × SemHit)}
    (ps : List (String × ℚ)) (gs : List (String × List (String × ℚ)))
    (hgs : ∀ g ∈ gs, ∀ q ∈ g.2, Q q) (hps : ∀ p ∈ ps, Q p) :
    ∀ g ∈ buildGroups limit kwD semD ps gs, ∀ q ∈ g.2, Q q := by
  induction ps generalizing gs with
  | nil => exact hgs
  | cons p rest ih =>
    simp only [buildGroups]
    exact ih _ (pairs_in_addToGroups hgs (hps p (by simp)))
      (fun q hq => hps q (by simp [hq]))

theorem chunkId_mem_fused {limit : ℕ} {fused : List (String × ℚ)}
    {kwD : List (String × KwHit)} {semD : List (String × SemHit)} {h : Hit}
    (hh : h ∈ apply_grouping limit fused kwD semD) :
    h.chunk_id ∈ fused.map Prod.fst := by
  unfold apply_grouping at hh
  rw [List.mem_flatten] at hh
  obtain ⟨blk, hblk, hhblk⟩ := hh
  obtain ⟨g, hg, rfl⟩ := List.mem_map.mp hblk
  obtain ⟨p, hpg, rfl⟩ := List.mem_map.mp hhblk
  have hpf : p ∈ fused :=
    pairs_in_buildGroups fused [] (by simp) (fun q hq => hq) g hg p hpg
  exact List.mem_map.mpr ⟨p, hpf, rfl⟩

/-- C10: in hybrid mode the fused candidate list is truncated to `k*5`
entries before grouping, every returned hit's chunk_id is among those
candidates, and grouping can shrink the result below `k` even when the
input rankings held at least `k` candidates (twenty single-document
hits with `k = 4` yield only three hits). -/
theorem c10_candidate_truncation :
    (∀ (K limit : ℕ) (kw : List KwHit) (sem : List SemHit) (k : ℕ) (h : Hit),
      h ∈ search K limit kw (some sem) k →
      h.chunk_id ∈
        (rrf_fusion K [kw.map KwHit.chunk_id, sem.map SemHit.chunk_id] (k * 5)).map Prod.fst) ∧
    (∀ (K : ℕ) (lists : List (List String)) (topK : ℕ),
      (rrf_fusion K lists topK).length ≤ topK) ∧
    ((search 60 3 kw20 (some []) 4).length < 4 ∧ 4 ≤ kw20.length) := by
  refine ⟨?_, ?_, ?_⟩
  · intro K limit kw sem k h hh
    have hh' : h ∈ apply_grouping limit
        (rrf_fusion K [kw.map KwHit.chunk_id, sem.map SemHit.chunk_id] (k * 5))
        (kw.map (fun r => (r.chunk_id, r)))
        (sem.map (fun r => (r.chunk_id, r))) := by
      have := List.take_subset k (apply_grouping limit
        (rrf_fusion K [kw.map KwHit.chunk_id, sem.map SemHit.chunk_id] (k * 5))
        (kw.map (fun r => (r.chunk_id, r)))
        (sem.map (fun r => (r.chunk_id, r))))
      exact this hh
    exact chunkId_mem_fused hh'
  · intro K lists topK
    rw [rrf_fusion]
    exact List.length_take_le _ _
  · exact ⟨by decide, by decide⟩

/-- C10 witness: the first hit of a concrete hybrid search has its
chunk_id among the fused candidates. -/
theorem c10_candidate_truncation_witness :
    ({ chunk_id := "a:1", doc_id := "a", rrf_score := some (1/61), bm25 := some 5,
       semantic := none, source := HitSource.keyword, sect := "",
       chunk_index := 0 } : Hit) ∈ search 60 3 exKw3 (some []) 3 ∧
    ({ chunk_id := "a:1", doc_id := "a", rrf_score := some (1/61), bm25 := some 5,
       semantic := none, source := HitSource.keyword, sect := "",
       chunk_index := 0 } : Hit).chunk_id ∈
      (rrf_fusion 60 [exKw3.map KwHit.chunk_id,
        ([] : List SemHit).map SemHit.chunk_id] (3 * 5)).map Prod.fst :=
  ⟨by decide, c10_candidate_truncation.1 60 3 exKw3 [] 3 _ (by decide)⟩

end SearchEngine

namespace Chunking

/-- C3: the chunker's final filter drops below-floor chunks
unconditionally, with no single-chunk exception for documents that are
entirely below the floor. The non-empty document "Test content" counts
2 tokens (fallback counter), which is below the default floor of 20, so
`HierarchicalChunker.chunk` returns the empty list — the repository's
own tests assert at least one chunk for exactly such inputs. -/
theorem c3_floor_filter_empties_document :
    chunk 500 20 "Test content" = [] ∧
    "Test content" ≠ "" ∧
    count_tokens "Test content" = 2 ∧
    count_tokens "Test content" < 20 := by
  exact ⟨by decide, by decide, by decide, by decide⟩

end Chunking

namespace RecordsIO

theorem runOps_writes (p : String) (lines : List String) (fs : Fs) (cur : String)
    (hcur : fs p = some cur) :
    runOps fs (lines.map (fun line => FsOp.writeData p (line ++ "\n"))) p =
      some (lines.foldl (fun acc l => acc ++ (l ++ "\n")) cur) := by
  induction lines generalizing fs cur with
  | nil => simpa [runOps] using hcur
  | cons l rest ih =>
    simp only [List.map_cons, List.foldl_cons, runOps, List.foldl]
    exact ih _ _ (by simp [runOp, hcur])

/-- C4 counterexample: the trace of `save_record` ends in a data write,
not a rename, so it is not a write-to-temp-and-rename; and a reader who
inspects the file between the truncating open and the dump observes an
empty file, which is neither the old record nor the new one. -/
theorem c4_counterexample :
    (¬ atomicTempRename (save_record_ops "R1" "NEW" "data") ("data" ++ "/" ++ "R1" ++ ".json")) ∧
    ¬ allOrNothing
      (fun p => if p = "data" ++ "/" ++ "R1" ++ ".json" then some "OLD" else none)
      (save_record_ops "R1" "NEW" "data") ("data" ++ "/" ++ "R1" ++ ".json") "NEW" := by
  constructor
  · rintro ⟨pre, tmp, hne, heq, hpre⟩
    have hlast := congrArg List.getLast? heq
    rw [List.getLast?_concat] at hlast
    simp only [save_record_ops, List.getLast?] at hlast
    cases hlast
  · intro h
    have h1 := h (runOp (fun p => if p = "data" ++ "/" ++ "R1" ++ ".json" then some "OLD" else none)
        (FsOp.truncate ("data" ++ "/" ++ "R1" ++ ".json")))
      (List.mem_cons.mpr (Or.inr (List.mem_cons.mpr (Or.inl rfl))))
    simp only [runOp, if_pos rfl] at h1
    rcases h1 with h1 | h1 <;> exact absurd h1 (by decide)

/-- C4 (amended): `save_record` and `save_chunks` open the destination
file directly in write mode (truncating it) and write the serialized
content into it; no temporary file and no rename are involved. After the
trace completes the destination holds exactly the new content, but the
truncated intermediate state is observable to a concurrent reader. -/
theorem c4_amended :
    (∀ recId json dir, save_record_ops recId json dir =
        [FsOp.truncate (dir ++ "/" ++ recId ++ ".json"),
         FsOp.writeData (dir ++ "/" ++ recId ++ ".json") json] ∧
      (save_record_ops recId json dir).all (fun op => !(isRenameOp op)) = true ∧
      ∀ fs0, runOps fs0 (save_record_ops recId json dir)
        (dir ++ "/" ++ recId ++ ".json") = some json) ∧
    (∀ docId lines dir,
      (save_chunks_ops docId lines dir).all (fun op => !(isRenameOp op)) = true ∧
      ∀ fs0, runOps fs0 (save_chunks_ops docId lines dir)
        (dir ++ "/" ++ docId ++ ".ndjson") =
          some (lines.foldl (fun acc l => acc ++ (l ++ "\n")) "")) := by
  constructor
  · intro recId json dir
    refine ⟨rfl, by simp [save_record_ops, isRenameOp], ?_⟩
    intro fs0
    simp only [save_record_ops, runOps, List.foldl, runOp, if_pos rfl]
    simp
  · intro docId lines dir
    constructor
    · simp only [save_chunks_ops, List.all_cons, isRenameOp, Bool.not_false, Bool.true_and]
      rw [List.all_eq_true]
      intro op hop
      obtain ⟨line, _, rfl⟩ := List.mem_map.mp hop
      rfl
    · intro fs0
      simp only [save_chunks_ops, runOps, List.foldl]
      have := runOps_writes (dir ++ "/" ++ docId ++ ".ndjson") lines
        (runOp fs0 (FsOp.truncate (dir ++ "/" ++ docId ++ ".ndjson")))
        "" (by simp [runOp])
      simpa [runOps] using this

end RecordsIO

namespace LinkGraph

open SearchEngine (dictGet)

theorem dictGet_eq_none_iff {β : Type} (rs : List (String × β)) (c : String) :
    dictGet rs c = none ↔ c ∉ rs.map Prod.fst := by
  induction rs with
  | nil => simp [dictGet]
  | cons e rest ih =>
    simp only [dictGet, List.map_cons, List.mem_cons]
    cases h : dictGet rest c with
    | some w =>
      have hmem : c ∈ rest.map Prod.fst := by
        by_contra hc
        rw [ih.mpr hc] at h
        cases h
      simp [hmem]
    | none =>
      have hc : c ∉ rest.map Prod.fst := ih.mp h
      by_cases he : e.1 = c
      · simp [he, hc]
      · have hcs : ¬ c = e.1 := fun hcc => he hcc.symm
        simp [he, hc, hcs]

theorem dictGet_map_value {β γ : Type} (rs : List (String × β)) (g : β → γ) (c : String) :
    dictGet (rs.map (fun e => (e.1, g e.2))) c = (dictGet rs c).map g := by
  induction rs with
  | nil => rfl
  | cons e rest ih =>
    simp only [List.map_cons, dictGet, ih]
    cases dictGet rest c with
    | some w => rfl
    | none =>
      by_cases he : e.1 = c <;> simp [he]

theorem keys_updateRecord (rs : List (String × LRecord)) (key : String)
    (f : LRecord → LRecord) :
    (updateRecord rs key f).map Prod.fst = rs.map Prod.fst := by
  simp only [updateRecord, List.map_map]
  apply List.map_congr_left
  intro e _
  by_cases he : e.1 = key <;> simp [he]

theorem dictGet_updateRecord_ne (rs : List (String × LRecord)) (key t : String)
    (f : LRecord → LRecord) (h : t ≠ key) :
    dictGet (updateRecord rs key f) t = dictGet rs t := by
  induction rs with
  | nil => rfl
  | cons e rest ih =>
    simp only [updateRecord, List.map_cons] at ih ⊢
    by_cases he : e.1 = key
    · rw [if_pos he]
      simp only [dictGet, ih]
      cases dictGet rest t with
      | some w => rfl
      | none =>
        have h1 : ¬ e.1 = t := by rw [he]; exact fun hc => h hc.symm
        simp [h1]
    · rw [if_neg he]
      simp only [dictGet, ih]

theorem dictGet_updateRecord_self (rs : List (String × LRecord)) (key : String)
    (f : LRecord → LRecord) :
    dictGet (updateRecord rs key f) key = (dictGet rs key).map f := by
  induction rs with
  | nil => rfl
  | cons e rest ih =>
    simp only [updateRecord, List.map_cons] at ih ⊢
    by_cases he : e.1 = key
    · rw [if_pos he]
      simp only [dictGet, ih]
      cases dictGet rest key with
      | some w => rfl
      | none => simp [he]
    · rw [if_neg he]
      simp only [dictGet, ih]
      cases dictGet rest key with
      | some w => rfl
      | none => simp [he]

theorem dictGet_addBacklinks (links : List Link) (rs : List (String × LRecord))
    (sid B : String) :
    dictGet (addBacklinksOfSource rs sid links) B =
      (dictGet rs B).map (fun r =>
        { r with backlinks :=
            r.backlinks ++ (links.filter (backlinkPred B)).map (fun l => mkBacklink l sid) }) := by
  induction links generalizing rs with
  | nil =>
    simp only [addBacklinksOfSource, List.foldl_nil, List.filter_nil, List.map_nil]
    cases dictGet rs B with
    | none => rfl
    | some r => simp
  | cons l rest ih =>
    simp only [addBacklinksOfSource] at ih ⊢
    rw [List.foldl_cons, List.filter_cons]
    cases hT : l.target with
    | none =>
      dsimp only
      have hpred : backlinkPred B l = false := by simp [backlinkPred, hT]
      rw [hpred, if_neg (by simp)]
      exact ih rs
    | some t =>
      dsimp only
      by_cases hc : l.resolved ∧ t ≠ "" ∧ (rs.map Prod.fst).contains t
      · rw [if_pos hc, ih]
        by_cases hB : t = B
        · subst hB
          rw [dictGet_updateRecord_self]
          have hpred : backlinkPred t l = true := by
            simp [backlinkPred, hT, hc.1, hc.2.1]
          rw [hpred, if_pos (by simp)]
          cases dictGet rs t with
          | none => rfl
          | some r => simp
        · rw [dictGet_updateRecord_ne _ _ _ _ (fun hcc => hB hcc.symm)]
          have hpred : backlinkPred B l = false := by
            simp only [backlinkPred, hT]
            simp [hB]
          rw [hpred, if_neg (by simp)]
      · rw [if_neg hc, ih]
        by_cases hpred : backlinkPred B l = true
        · have hp : l.resolved = true ∧ l.target = some B ∧ B ≠ "" := by
            simpa [backlinkPred] using hpred
          have htB : t = B := by
            rw [hT] at hp
            exact Option.some.inj hp.2.1
          have hnc : ¬ ((rs.map Prod.fst).contains t = true) := by
            intro hcon
            exact hc ⟨hp.1, htB ▸ hp.2.2, hcon⟩
          have hnone : dictGet rs B = none := by
            rw [dictGet_eq_none_iff]
            intro hmem
            apply hnc
            rw [htB]
            exact List.elem_eq_true_of_mem hmem
          rw [hnone]
          simp
        · rw [Bool.not_eq_true] at hpred
          rw [hpred, if_neg (by simp)]

theorem dictGet_backlinks_fold (S : List (String × LRecord))
    (acc : List (String × LRecord)) (B : String) :
    dictGet (S.foldl (fun a e => addBacklinksOfSource a e.1 e.2.links) acc) B =
      (dictGet acc B).map (fun r =>
        { r with backlinks := r.backlinks ++ backlinkBlocks S B }) := by
  induction S generalizing acc with
  | nil =>
    simp only [List.foldl_nil, backlinkBlocks, List.map_nil, List.flatten_nil]
    cases dictGet acc B with
    | none => rfl
    | some r => simp
  | cons e S' ih =>
    rw [List.foldl_cons, ih, dictGet_addBacklinks]
    cases dictGet acc B with
    | none => rfl
    | some r => simp [backlinkBlocks]

theorem countP_backlink_block (ls : List Link) (sid A B : String) :
    ((ls.filter (backlinkPred B)).map (fun l => mkBacklink l sid)).countP
      (fun bl => bl.target = some A) =
      if sid = A then (ls.filter (backlinkPred B)).length else 0 := by
  rw [List.countP_map]
  by_cases h : sid = A
  · subst h
    rw [if_pos rfl, List.countP_eq_length.mpr]
    intro a _
    simp [mkBacklink, Function.comp]
  · rw [if_neg h, List.countP_eq_zero.mpr]
    intro a _
    simp [mkBacklink, Function.comp, h]

theorem countP_blocks_zero (S : List (String × LRecord)) (A B : String)
    (h : A ∉ S.map Prod.fst) :
    (backlinkBlocks S B).countP (fun bl => bl.target = some A) = 0 := by
  induction S with
  | nil => rfl
  | cons e S' ih =>
    simp only [backlinkBlocks, List.map_cons, List.flatten_cons, List.countP_append]
    simp only [List.map_cons, List.mem_cons] at h
    push_neg at h
    rw [countP_backlink_block, if_neg (fun hc => h.1 hc.symm)]
    have := ih h.2
    simp only [backlinkBlocks] at this
    omega

theorem countP_blocks (S : List (String × LRecord)) (A B : String) (wlA : LRecord)
    (hnd : (S.map Prod.fst).Nodup) (hget : dictGet S A = some wlA) :
    (backlinkBlocks S B).countP (fun bl => bl.target = some A) =
      (wlA.links.filter (backlinkPred B)).length := by
  induction S with
  | nil => cases hget
  | cons e S' ih =>
    simp only [List.map_cons, List.nodup_cons] at hnd
    simp only [backlinkBlocks, List.map_cons, List.flatten_cons, List.countP_append]
    rw [countP_backlink_block]
    simp only [dictGet] at hget
    cases h' : dictGet S' A with
    | some w =>
      rw [h'] at hget
      have hw : w = wlA := Option.some.inj hget
      subst hw
      have hmem : A ∈ S'.map Prod.fst := by
        by_contra hc
        rw [(dictGet_eq_none_iff S' A).mpr hc] at h'
        cases h'
      have hne : ¬ e.1 = A := fun hc => hnd.1 (hc ▸ hmem)
      rw [if_neg hne]
      have := ih hnd.2 h'
      simp only [backlinkBlocks] at this
      omega
    | none =>
      rw [h'] at hget
      by_cases he : e.1 = A
      · rw [if_pos he] at hget
        have hw : e.2 = wlA := Option.some.inj hget
        rw [if_pos he, hw]
        have hz := countP_blocks_zero S' A B ((dictGet_eq_none_iff S' A).mp h')
        simp only [backlinkBlocks] at hz
        omega
      · rw [if_neg he] at hget
        cases hget

end LinkGraph

namespace LinkGraph

open SearchEngine (dictGet)

theorem dictGet_withLinksOf_aux (records : List (String × LRecord))
    (lookup : LookupMaps) (C : String) :
    dictGet ((records.map (fun e => (e.1, { e.2 with
        links := ([] : List Link)
        backlinks := ([] : List Link) }))).map
      (fun e => (e.1, { e.2 with links :=
        (extract_wikilinks e.2.full_text).map (linkFromWikilink lookup) }))) C =
    (dictGet records C).map (fun r =>
      { r with
        links := (extract_wikilinks r.full_text).map (linkFromWikilink lookup)
        backlinks := [] }) := by
  induction records with
  | nil => rfl
  | cons e rest ih =>
    simp only [List.map_cons, dictGet, ih]
    cases dictGet rest C with
    | some w => rfl
    | none =>
      by_cases he : e.1 = C <;> simp [he]

theorem dictGet_withLinksOf (records : List (String × LRecord)) (C : String) :
    dictGet (withLinksOf records) C = (dictGet records C).map (fun r =>
      { r with
        links := (extract_wikilinks r.full_text).map
          (linkFromWikilink (build_lookup_maps records))
        backlinks := [] }) :=
  dictGet_withLinksOf_aux records (build_lookup_maps records) C

theorem keys_withLinksOf (records : List (String × LRecord)) :
    (withLinksOf records).map Prod.fst = records.map Prod.fst := by
  simp only [withLinksOf, List.map_map]
  apply List.map_congr_left
  intro e _
  rfl

theorem dictGet_process_links (records : List (String × LRecord)) (C : String) :
    dictGet (process_links records) C =
      (dictGet records C).map (fun r =>
        { r with
          links := (extract_wikilinks r.full_text).map
            (linkFromWikilink (build_lookup_maps records))
          backlinks := backlinkBlocks (withLinksOf records) C }) := by
  have h1 : process_links records =
      (withLinksOf records).foldl (fun a e => addBacklinksOfSource a e.1 e.2.links)
        (withLinksOf records) := rfl
  rw [h1, dictGet_backlinks_fold, dictGet_withLinksOf]
  cases dictGet records C with
  | none => rfl
  | some r => rfl

/-- C5 counterexample: document `A1` contains the resolved link
`[[b-slug]]` to `B1` twice; after the rebuild `B1` carries two backlinks
targeting `A1`, not exactly one. -/
theorem c5_counterexample :
    ((dictGet (process_links exRecords) "B1").map
      (fun r => r.backlinks.countP (fun l => l.target = some "A1"))) = some 2 ∧
    ¬ (((dictGet (process_links exRecords) "B1").map
      (fun r => r.backlinks.countP (fun l => l.target = some "A1"))) = some 1) ∧
    ((dictGet (process_links exRecords) "A1").map
      (fun r => r.links.countP (fun l => l.resolved ∧ l.target = some "B1"))) = some 2 := by
  exact ⟨by decide, by decide, by decide⟩

/-- C5 (amended): after a link rebuild, the number of backlinks on `B`
whose target is `A` equals the number of occurrences of resolved links
to `B` in `A`'s processed link list — one backlink per occurrence, so a
document linked twice receives two backlinks, not one. -/
theorem c5_backlink_per_occurrence (records : List (String × LRecord))
    (hnd : (records.map Prod.fst).Nodup) (A B : String) (hB : B ≠ "")
    (rA rB : LRecord)
    (hA : dictGet (process_links records) A = some rA)
    (hBr : dictGet (process_links records) B = some rB) :
    rB.backlinks.countP (fun l => l.target = some A) =
      rA.links.countP (fun l => l.resolved ∧ l.target = some B) := by
  rw [dictGet_process_links] at hA hBr
  cases hrA0 : dictGet records A with
  | none =>
    rw [hrA0] at hA
    cases hA
  | some rA0 =>
    rw [hrA0] at hA
    cases hrB0 : dictGet records B with
    | none =>
      rw [hrB0] at hBr
      cases hBr
    | some rB0 =>
      rw [hrB0] at hBr
      have hAe := Option.some.inj hA
      have hBe := Option.some.inj hBr
      subst hAe hBe
      have hkeys : ((withLinksOf records).map Prod.fst).Nodup := by
        rw [keys_withLinksOf]
        exact hnd
      have hgetW : dictGet (withLinksOf records) A = some
          { rA0 with
            links := (extract_wikilinks rA0.full_text).map
              (linkFromWikilink (build_lookup_maps records))
            backlinks := [] } := by
        rw [dictGet_withLinksOf, hrA0]
        rfl
      have hcount := countP_blocks (withLinksOf records) A B _ hkeys hgetW
      simp only at hcount ⊢
      rw [hcount, ← List.countP_eq_length_filter]
      apply List.countP_congr
      intro l _
      simp [backlinkPred, hB]

/-- C5 witness: the two-record example instantiates the per-occurrence
count: two resolved links from `A1` to `B1` yield two backlinks. -/
theorem c5_backlink_per_occurrence_witness :
    (exRecords.map Prod.fst).Nodup ∧ ("B1" : String) ≠ "" ∧
    SearchEngine.dictGet (process_links exRecords) "A1" = some exA1after ∧
    SearchEngine.dictGet (process_links exRecords) "B1" = some exB1after ∧
    (exB1after.backlinks.countP (fun l => l.target = some "A1") =
      exA1after.links.countP (fun l => l.resolved ∧ l.target = some "B1")) :=
  ⟨by decide, by decide, by decide, by decide,
    c5_backlink_per_occurrence exRecords (by decide) "A1" "B1" (by decide)
      exA1after exB1after (by decide) (by decide)⟩

end LinkGraph

namespace Relevance

theorem clamp01_nonneg (x : ℝ) : 0 ≤ clamp01 x := le_max_left 0 _

theorem clamp01_le_one (x : ℝ) : clamp01 x ≤ 1 := max_le zero_le_one (min_le_left 1 x)

/-- C7: for every record (arbitrary backlink, word and link counts,
arbitrary user flags), every timestamp (timestamps in the future
included), every half-life and any configured weights, the relevance
score lies in the closed interval from zero to one: the final clamp of
`compute_relevance_score` enforces it mechanically. -/
theorem c7_relevance_bounded (wR wL wQ wU halfLife : ℝ) (r : RelRecord) (nowSec : ℝ) :
    0 ≤ compute_relevance_score wR wL wQ wU halfLife r nowSec ∧
    compute_relevance_score wR wL wQ wU halfLife r nowSec ≤ 1 :=
  ⟨clamp01_nonneg _, clamp01_le_one _⟩

end Relevance

namespace LinkGraph

/-- C8: `resolve_link` tries exactly the four tiers in order — existing
ULID, case-sensitive slug, lowercased alias, lowercased title — with the
first hit winning, and a target matching no tier produces a link kept
with `resolved = false`, `target = none` and `type = "slug"`. -/
theorem c8_resolution_tiers :
    (∀ (target : String) (lk : LookupMaps),
      resolve_link target lk = resolveLinkSpec target lk) ∧
    (∀ (lk : LookupMaps) (wl : WikiLink),
      resolve_link wl.target lk = (none, "unresolved") →
      (linkFromWikilink lk wl).resolved = false ∧
      (linkFromWikilink lk wl).target = none ∧
      (linkFromWikilink lk wl).type = "slug") := by
  constructor
  · intro target lk
    cases h1 : SearchEngine.dictGet lk.id (Chunking.pyStrip target) <;>
      cases h2 : SearchEngine.dictGet lk.slug (Chunking.pyStrip target) <;>
      cases h3 : SearchEngine.dictGet lk.aliasMap (pyLower (Chunking.pyStrip target)) <;>
      cases h4 : SearchEngine.dictGet lk.title (pyLower (Chunking.pyStrip target)) <;>
      simp [resolve_link, resolveLinkSpec, h1, h2, h3, h4]
  · intro lk wl h
    refine ⟨?_, ?_, ?_⟩ <;> simp [linkFromWikilink, h]

/-- C8 witness: against the two-record example, an unknown target
resolves to nothing and the kept link carries the defaults. -/
theorem c8_resolution_tiers_witness :
    resolve_link "zzz" (build_lookup_maps exRecords) =
      resolveLinkSpec "zzz" (build_lookup_maps exRecords) ∧
    resolve_link (WikiLink.mk "[[zzz]]" "zzz" "zzz" "ctx").target
      (build_lookup_maps exRecords) = (none, "unresolved") ∧
    ((linkFromWikilink (build_lookup_maps exRecords)
        (WikiLink.mk "[[zzz]]" "zzz" "zzz" "ctx")).resolved = false ∧
      (linkFromWikilink (build_lookup_maps exRecords)
        (WikiLink.mk "[[zzz]]" "zzz" "zzz" "ctx")).target = none ∧
      (linkFromWikilink (build_lookup_maps exRecords)
        (WikiLink.mk "[[zzz]]" "zzz" "zzz" "ctx")).type = "slug") :=
  ⟨c8_resolution_tiers.1 "zzz" (build_lookup_maps exRecords), by decide,
    c8_resolution_tiers.2 (build_lookup_maps exRecords)
      (WikiLink.mk "[[zzz]]" "zzz" "zzz" "ctx") (by decide)⟩

end LinkGraph

namespace Embeddings

theorem sumSq_nonneg (v : List ℝ) : 0 ≤ sumSq v := by
  apply List.sum_nonneg
  intro x hx
  obtain ⟨y, _, rfl⟩ := List.mem_map.mp hx
  positivity

theorem sumSq_div (v : List ℝ) (d : ℝ) :
    sumSq (v.map (fun x => x / d)) = sumSq v / d ^ 2 := by
  induction v with
  | nil => simp [sumSq]
  | cons x xs ih =>
    simp only [sumSq, List.map_cons, List.sum_cons] at *
    rw [ih, div_pow, add_div]

/-- C9: after loading, a row with non-zero norm is normalized to unit
norm, an all-zero row is preserved unchanged (its norm is replaced by
one before dividing), and a zero-norm query yields similarity zero
against every row of the matrix. -/
theorem c9_normalization :
    (∀ v : List ℝ, l2norm v ≠ 0 → l2norm (normalizeRow v) = 1) ∧
    (∀ v : List ℝ, l2norm v = 0 → normalizeRow v = v) ∧
    (∀ (M : List (List ℝ)) (w : List ℝ), w ∈ normalizeMatrix M →
      l2norm w = 1 ∨ (l2norm w = 0 ∧ w ∈ M)) ∧
    (∀ (q : List ℝ) (M : List (List ℝ)), l2norm q = 0 →
      cosine_similarity q M = M.map (fun _ => 0)) := by
  have hunit : ∀ v : List ℝ, l2norm v ≠ 0 → l2norm (normalizeRow v) = 1 := by
    intro v h
    have hS : 0 ≤ sumSq v := sumSq_nonneg v
    simp only [normalizeRow, if_neg h]
    rw [l2norm, sumSq_div, Real.sqrt_div hS]
    rw [Real.sqrt_sq (show (0 : ℝ) ≤ l2norm v from Real.sqrt_nonneg (sumSq v))]
    exact div_self h
  have hzero : ∀ v : List ℝ, l2norm v = 0 → normalizeRow v = v := by
    intro v h
    simp [normalizeRow, if_pos h]
  refine ⟨hunit, hzero, ?_, ?_⟩
  · intro M w hw
    obtain ⟨v, hv, rfl⟩ := List.mem_map.mp hw
    by_cases h : l2norm v = 0
    · right
      rw [hzero v h]
      exact ⟨h, hv⟩
    · left
      exact hunit v h
  · intro q M h
    cases M with
    | nil => rfl
    | cons row rest => simp [cosine_similarity, h]

/-- C9 witness: the vector (3, 4) has norm five and normalizes to unit
norm; the zero vector is preserved; a zero query yields zero
similarities. -/
theorem c9_normalization_witness :
    l2norm [(3 : ℝ), 4] ≠ 0 ∧ l2norm (normalizeRow [(3 : ℝ), 4]) = 1 ∧
    l2norm [(0 : ℝ), 0] = 0 ∧ normalizeRow [(0 : ℝ), 0] = [0, 0] ∧
    cosine_similarity [(0 : ℝ), 0] [[1, 2], [3, 4]] = [0, 0] := by
  have h0 : l2norm [(0 : ℝ), 0] = 0 := by
    simp [l2norm, sumSq]
  have h1 : l2norm [(3 : ℝ), 4] ≠ 0 := by
    have hS : sumSq [(3 : ℝ), 4] = 25 := by
      simp [sumSq]
      norm_num
    rw [l2norm, hS]
    have : (0 : ℝ) < Real.sqrt 25 := Real.sqrt_pos.mpr (by norm_num)
    exact ne_of_gt this
  refine ⟨h1, c9_normalization.1 [(3 : ℝ), 4] h1, h0,
    c9_normalization.2.1 [(0 : ℝ), 0] h0, ?_⟩
  rw [c9_normalization.2.2.2 [(0 : ℝ), 0] [[1, 2], [3, 4]] h0]
  rfl

end Embeddings
